import Mathlib

/-!
Verification of the chat-recreator repository's core algorithms in Lean 4.

The definitions below are shallow embeddings of the Python source:
* the turn-segmentation loop of `all_conversations_sorted_with_turns_and_html`
  (convo_regenerator.py, lines 520-539), which is the same loop as in
  `group_chat_to_html` (group_chat_regenerator.py, lines 96-117);
* the date-grouping step (convo_regenerator.py, lines 499-505);
* the alias-mapping construction and conversation-key computation
  (convo_regenerator.py, lines 437-443 and 468-472) and the two-way
  conversation lookup (convo_regenerator.py, lines 36-42);
* the identifier cleaning of `clean_matrix_json`
  (blackbasta_json_cleaner.py, lines 34-73).

Timestamps are modelled as integer seconds (Python datetimes support
subtraction in seconds via `total_seconds()`, and `.date()` is the calendar
day, modelled as the floor division of the timestamp by 86400).
-/

namespace ChatRecreator

/-- A chat message as used by the segmentation code: the tuple
`(ts, sender_canonical, receiver_canonical, body)` built at
convo_regenerator.py line 477. `ts` is in seconds. -/
structure Message where
  ts : Int
  sender : String
  receiver : String
  text : String
deriving DecidableEq, Repr

/-- The input sequences fed to segmentation are sorted ascending by
timestamp (convo_regenerator.py line 488, group_chat_regenerator.py
line 90). -/
def ChronSorted (ms : List Message) : Prop :=
  List.Chain' (fun a b => a.ts ≤ b.ts) ms

/-- The inner loop of turn segmentation (convo_regenerator.py lines
524-539): `prev` is `unit[i-1]`, `currentTurn` is `current_turn`, `turns`
is the accumulated `turns` list.  A new turn starts when the sender
changes or the time difference exceeds 1800 seconds (line 529); at the
end the final turn is appended if non-empty (lines 538-539). -/
def segmentLoop (prev : Message) (currentTurn : List Message)
    (turns : List (List Message)) : List Message → List (List Message)
  | [] => if currentTurn = [] then turns else turns ++ [currentTurn]
  | curr :: rest =>
    if curr.sender ≠ prev.sender ∨ curr.ts - prev.ts > 1800 then
      segmentLoop curr [curr] (turns ++ [currentTurn]) rest
    else
      segmentLoop curr (currentTurn ++ [curr]) turns rest

/-- Turn segmentation (convo_regenerator.py lines 516-539 for one unit;
the same loop appears at group_chat_regenerator.py lines 96-117):
the current turn is initialised with the first message (line 520) and
the loop runs over the remaining messages. An empty input produces no
turns (line 517-518 skips empty units; in the group-chat variant the
loop body never runs and `turns` stays empty). -/
def segment : List Message → List (List Message)
  | [] => []
  | m :: rest => segmentLoop m [m] [] rest

theorem segmentLoop_join (rest : List Message) :
    ∀ (prev : Message) (ct : List Message) (ts : List (List Message)),
      (segmentLoop prev ct ts rest).flatten = ts.flatten ++ ct ++ rest := by
  induction rest with
  | nil =>
    intro prev ct ts
    by_cases h : ct = []
    · simp [segmentLoop, h]
    · simp [segmentLoop, h]
  | cons curr rest ih =>
    intro prev ct ts
    by_cases h : curr.sender ≠ prev.sender ∨ curr.ts - prev.ts > 1800
    · rw [segmentLoop, if_pos h, ih]
      simp
    · rw [segmentLoop, if_neg h, ih]
      simp

/-- C1: for every chronologically sorted message sequence, the in-order
concatenation of the turns produced by `segment` is exactly the input
sequence: no message is lost, duplicated, or reordered. -/
theorem segment_join_eq (ms : List Message) (hs : ChronSorted ms) :
    (segment ms).flatten = ms := by
  cases ms with
  | nil => rfl
  | cons m rest => rw [segment, segmentLoop_join]; rfl

/-- Concrete instance of `segment_join_eq` on a three-message sorted
sequence. -/
theorem segment_join_eq_example :
    (segment [⟨0, "A", "B", "hi"⟩, ⟨60, "A", "B", "again"⟩,
              ⟨4000, "B", "A", "reply"⟩]).flatten =
      [⟨0, "A", "B", "hi"⟩, ⟨60, "A", "B", "again"⟩,
       ⟨4000, "B", "A", "reply"⟩] :=
  segment_join_eq _ (by norm_num [ChronSorted, List.chain'_cons])

/-- Two messages may stay in the same turn, in the order `a` then `b`:
the negation of the break condition at convo_regenerator.py line 529
(same sender and at most 1800 seconds apart). -/
def sameTurnRel (a b : Message) : Prop :=
  a.sender = b.sender ∧ b.ts - a.ts ≤ 1800

/-- Invariant of a produced turn: non-empty and chained by
`sameTurnRel`. -/
def GoodTurn (t : List Message) : Prop :=
  t ≠ [] ∧ List.Chain' sameTurnRel t

theorem segmentLoop_goodTurns (rest : List Message) :
    ∀ (prev : Message) (ct : List Message) (ts : List (List Message)),
      ct ≠ [] → ct.getLast? = some prev → List.Chain' sameTurnRel ct →
      (∀ t ∈ ts, GoodTurn t) →
      ∀ t ∈ segmentLoop prev ct ts rest, GoodTurn t := by
  induction rest with
  | nil =>
    intro prev ct ts hne _ hchain hts t ht
    rw [segmentLoop, if_neg hne] at ht
    rcases List.mem_append.mp ht with h | h
    · exact hts t h
    · rw [List.mem_singleton] at h
      subst h
      exact ⟨hne, hchain⟩
  | cons curr rest ih =>
    intro prev ct ts hne hlast hchain hts t ht
    rw [segmentLoop] at ht
    by_cases hcond : curr.sender ≠ prev.sender ∨ curr.ts - prev.ts > 1800
    · rw [if_pos hcond] at ht
      refine ih curr [curr] _ (by simp) (by simp) (by simp) ?_ t ht
      intro t' ht'
      rcases List.mem_append.mp ht' with h | h
      · exact hts t' h
      · rw [List.mem_singleton] at h
        subst h
        exact ⟨hne, hchain⟩
    · rw [if_neg hcond] at ht
      push_neg at hcond
      obtain ⟨hsender, hgap⟩ := hcond
      refine ih curr (ct ++ [curr]) ts (by simp) (by simp) ?_ hts t ht
      refine List.Chain'.append hchain (List.chain'_singleton _) ?_
      intro x hx y hy
      rw [hlast, Option.mem_some_iff] at hx
      simp only [List.head?_cons, Option.mem_some_iff] at hy
      subst hx
      subst hy
      exact ⟨hsender.symm, hgap⟩

theorem chain'_head_sender (t : List Message) :
    ∀ (x : Message), List.Chain' sameTurnRel (x :: t) →
      ∀ y ∈ x :: t, y.sender = x.sender := by
  induction t with
  | nil =>
    intro x _ y hy
    rw [List.mem_singleton] at hy
    subst hy; rfl
  | cons z rest ih =>
    intro x hch y hy
    rw [List.chain'_cons] at hch
    rcases List.mem_cons.mp hy with h | h
    · subst h; rfl
    · calc y.sender = z.sender := ih z hch.2 y h
        _ = x.sender := hch.1.1.symm

theorem chain'_sender_eq (t : List Message)
    (hch : List.Chain' sameTurnRel t) :
    ∀ a ∈ t, ∀ b ∈ t, a.sender = b.sender := by
  cases t with
  | nil => intro a ha; exact absurd ha (List.not_mem_nil a)
  | cons x rest =>
    intro a ha b hb
    calc a.sender = x.sender := chain'_head_sender rest x hch a ha
      _ = b.sender := (chain'_head_sender rest x hch b hb).symm

/-- C2: for every chronologically sorted input, every turn produced by
`segment` is non-empty, all of its messages have the same sender, and
every adjacent pair of its messages is at most 1800 seconds apart. -/
theorem segment_turn_invariants (ms : List Message) (hs : ChronSorted ms) :
    ∀ t ∈ segment ms,
      t ≠ [] ∧ (∀ a ∈ t, ∀ b ∈ t, a.sender = b.sender) ∧
        List.Chain' (fun a b => b.ts - a.ts ≤ 1800) t := by
  intro t ht
  cases ms with
  | nil => simp [segment] at ht
  | cons m rest =>
    obtain ⟨hne, hchain⟩ :=
      segmentLoop_goodTurns rest m [m] [] (by simp) (by simp) (by simp)
        (by simp) t ht
    exact ⟨hne, chain'_sender_eq t hchain,
      hchain.imp (fun a b hab => hab.2)⟩

/-- Concrete instance of `segment_turn_invariants` on the first turn of a
segmented two-sender conversation. -/
theorem segment_turn_invariants_example :
    ([⟨0, "A", "B", "hi"⟩, ⟨60, "A", "B", "again"⟩] : List Message) ≠ [] ∧
      (∀ a ∈ ([⟨0, "A", "B", "hi"⟩, ⟨60, "A", "B", "again"⟩] : List Message),
        ∀ b ∈ ([⟨0, "A", "B", "hi"⟩, ⟨60, "A", "B", "again"⟩] : List Message),
          a.sender = b.sender) ∧
      List.Chain' (fun a b : Message => b.ts - a.ts ≤ 1800)
        [⟨0, "A", "B", "hi"⟩, ⟨60, "A", "B", "again"⟩] :=
  segment_turn_invariants
    [⟨0, "A", "B", "hi"⟩, ⟨60, "A", "B", "again"⟩, ⟨4000, "B", "A", "reply"⟩]
    (by norm_num [ChronSorted, List.chain'_cons])
    [⟨0, "A", "B", "hi"⟩, ⟨60, "A", "B", "again"⟩] (by decide)

/-- Adjacent turns cannot be merged: between the last message of the
earlier turn and the first message of the later turn, either the sender
differs or the gap exceeds 1800 seconds. -/
def turnBreak (t₁ t₂ : List Message) : Prop :=
  ∀ a ∈ t₁.getLast?, ∀ b ∈ t₂.head?, a.sender ≠ b.sender ∨ b.ts - a.ts > 1800

theorem segmentLoop_breaks (rest : List Message) :
    ∀ (prev : Message) (ct : List Message) (ts : List (List Message)),
      ct ≠ [] → ct.getLast? = some prev →
      List.Chain' turnBreak (ts ++ [ct]) →
      List.Chain' turnBreak (segmentLoop prev ct ts rest) := by
  induction rest with
  | nil =>
    intro prev ct ts hne _ hch
    rw [segmentLoop, if_neg hne]
    exact hch
  | cons curr rest ih =>
    intro prev ct ts hne hlast hch
    rw [segmentLoop]
    by_cases hcond : curr.sender ≠ prev.sender ∨ curr.ts - prev.ts > 1800
    · rw [if_pos hcond]
      refine ih curr [curr] (ts ++ [ct]) (by simp) (by simp) ?_
      refine List.Chain'.append hch (List.chain'_singleton _) ?_
      intro x hx y hy
      rw [List.getLast?_concat, Option.mem_some_iff] at hx
      simp only [List.head?_cons, Option.mem_some_iff] at hy
      subst hx
      subst hy
      intro a ha b hb
      rw [hlast, Option.mem_some_iff] at ha
      simp only [List.head?_cons, Option.mem_some_iff] at hb
      subst ha
      subst hb
      rcases hcond with h | h
      · exact Or.inl (Ne.symm h)
      · exact Or.inr h
    · rw [if_neg hcond]
      rw [List.chain'_append] at hch
      obtain ⟨h1, _, hlink⟩ := hch
      refine ih curr (ct ++ [curr]) ts (by simp) (by simp) ?_
      rw [List.chain'_append]
      refine ⟨h1, List.chain'_singleton _, ?_⟩
      intro x hx y hy
      simp only [List.head?_cons, Option.mem_some_iff] at hy
      subst hy
      intro a ha b hb
      rw [List.head?_append_of_ne_nil _ hne] at hb
      exact hlink x hx ct (by simp) a ha b hb

/-- C3: for every chronologically sorted input, every pair of adjacent
turns produced by `segment` either has different senders or has a gap of
more than 1800 seconds between the last message of the earlier turn and
the first message of the later turn. -/
theorem segment_maximality (ms : List Message) (hs : ChronSorted ms) :
    List.Chain' turnBreak (segment ms) := by
  cases ms with
  | nil => simp [segment]
  | cons m rest =>
    refine segmentLoop_breaks rest m [m] [] (by simp) (by simp) ?_
    simp

/-- Concrete instance of `segment_maximality`. -/
theorem segment_maximality_example :
    List.Chain' turnBreak
      (segment [⟨0, "A", "B", "hi"⟩, ⟨60, "A", "B", "again"⟩,
                ⟨4000, "B", "A", "reply"⟩]) :=
  segment_maximality _ (by norm_num [ChronSorted, List.chain'_cons])

/-- C4: segmenting an empty sequence yields no turns; a single message
yields exactly one one-message turn; and two consecutive same-sender
messages exactly 1800 seconds apart stay in one turn (the comparison at
convo_regenerator.py line 529 is a strict `>`). -/
theorem segment_edge_cases :
    segment [] = [] ∧
      (∀ m : Message, segment [m] = [[m]]) ∧
      (∀ m₁ m₂ : Message, m₁.sender = m₂.sender → m₂.ts - m₁.ts = 1800 →
        segment [m₁, m₂] = [[m₁, m₂]]) := by
  refine ⟨rfl, fun m => rfl, fun m₁ m₂ hsend hgap => ?_⟩
  rw [segment, segmentLoop, if_neg ?_, segmentLoop]
  · simp
  · rw [hgap]
    push_neg
    exact ⟨hsend.symm, le_refl _⟩

/-- Concrete instance of `segment_edge_cases`: the tie at exactly 1800
seconds does not close the turn. -/
theorem segment_edge_cases_example :
    segment [⟨0, "A", "B", "hi"⟩, ⟨1800, "A", "B", "again"⟩] =
      [[⟨0, "A", "B", "hi"⟩, ⟨1800, "A", "B", "again"⟩]] :=
  segment_edge_cases.2.2 ⟨0, "A", "B", "hi"⟩ ⟨1800, "A", "B", "again"⟩
    rfl (by norm_num)

/-- C5: five messages at `t, t+60, t+3600, t+3660, t+3700` from senders
`A, A, B, B, A` segment into exactly three turns `[m1, m2]`, `[m3, m4]`,
`[m5]`. -/
theorem segment_five_message_scenario
    (t : Int) (A B r₁ r₂ r₃ r₄ r₅ x₁ x₂ x₃ x₄ x₅ : String) (hAB : A ≠ B) :
    segment [⟨t, A, r₁, x₁⟩, ⟨t + 60, A, r₂, x₂⟩, ⟨t + 3600, B, r₃, x₃⟩,
             ⟨t + 3660, B, r₄, x₄⟩, ⟨t + 3700, A, r₅, x₅⟩] =
      [[⟨t, A, r₁, x₁⟩, ⟨t + 60, A, r₂, x₂⟩],
       [⟨t + 3600, B, r₃, x₃⟩, ⟨t + 3660, B, r₄, x₄⟩],
       [⟨t + 3700, A, r₅, x₅⟩]] := by
  rw [segment]
  rw [segmentLoop, if_neg ?h1]
  case h1 =>
    intro hc
    rcases hc with hc | hc
    · exact hc rfl
    · simp only [] at hc
      omega
  rw [segmentLoop, if_pos (Or.inl (Ne.symm hAB))]
  rw [segmentLoop, if_neg ?h2]
  case h2 =>
    intro hc
    rcases hc with hc | hc
    · exact hc rfl
    · simp only [] at hc
      omega
  rw [segmentLoop, if_pos (Or.inl hAB)]
  rw [segmentLoop]
  simp

/-- Concrete instance of `segment_five_message_scenario` at `t = 0`,
senders `"A"` and `"B"`. -/
theorem segment_five_message_scenario_example :
    segment [⟨0, "A", "", ""⟩, ⟨60, "A", "", ""⟩, ⟨3600, "B", "", ""⟩,
             ⟨3660, "B", "", ""⟩, ⟨3700, "A", "", ""⟩] =
      [[⟨0, "A", "", ""⟩, ⟨60, "A", "", ""⟩],
       [⟨3600, "B", "", ""⟩, ⟨3660, "B", "", ""⟩],
       [⟨3700, "A", "", ""⟩]] := by
  have h := segment_five_message_scenario 0 "A" "B" "" "" "" "" "" "" "" ""
    "" "" (by decide)
  norm_num at h
  exact h

/-- The calendar date of a message (`msg[0].date()` at
convo_regenerator.py line 501), modelled as the floor of the timestamp
over 86400 seconds. -/
def msgDate (m : Message) : Int := m.ts.fdiv 86400

/-- One step of `conversation_units[msg_date].append(msg)` on the
insertion-ordered dictionary of convo_regenerator.py lines 499-502,
modelled as an association list in key-insertion order. -/
def addToUnits : List (Int × List Message) → Int → Message →
    List (Int × List Message)
  | [], d, m => [(d, [m])]
  | (d', ms) :: rest, d, m =>
    if d' = d then (d', ms ++ [m]) :: rest
    else (d', ms) :: addToUnits rest d m

/-- Date grouping (convo_regenerator.py lines 499-505):
`list(conversation_units.values())` after all messages are appended in
input order. -/
def groupByDate (msgs : List Message) : List (List Message) :=
  (msgs.foldl (fun units m => addToUnits units (msgDate m) m) []).map
    Prod.snd

/-- The per-unit segmentation of step 4 (convo_regenerator.py lines
513-543): empty units are skipped and each remaining unit is segmented
independently, so turns never span two units. -/
def segmentUnits (msgs : List Message) : List (List (List Message)) :=
  ((groupByDate msgs).filter (fun u => !u.isEmpty)).map segment

/-- The dates of a message sequence in order of first appearance, later
duplicates removed.  This follows the spec's words for the Unit
grouper: one unit per calendar date, in first-seen date order. -/
def firstSeenDates : List Int → List Int
  | [] => []
  | d :: rest => d :: (firstSeenDates rest).filter (fun e => e ≠ d)

theorem mem_firstSeenDates (x : Int) :
    ∀ l : List Int, x ∈ firstSeenDates l ↔ x ∈ l := by
  intro l
  induction l with
  | nil => simp [firstSeenDates]
  | cons d rest ih =>
    by_cases hx : x = d
    · subst hx
      simp [firstSeenDates]
    · simp [firstSeenDates, List.mem_filter, hx, ih]

theorem nodup_firstSeenDates :
    ∀ l : List Int, (firstSeenDates l).Nodup := by
  intro l
  induction l with
  | nil => simp [firstSeenDates]
  | cons d rest ih =>
    rw [firstSeenDates, List.nodup_cons]
    refine ⟨?_, ih.filter _⟩
    intro hmem
    rcases List.mem_filter.mp hmem with ⟨_, hne⟩
    simp at hne

theorem firstSeenDates_append (d : Int) :
    ∀ l : List Int, firstSeenDates (l ++ [d]) =
      if d ∈ l then firstSeenDates l else firstSeenDates l ++ [d] := by
  intro l
  induction l with
  | nil => simp [firstSeenDates]
  | cons e l ih =>
    by_cases hd : d ∈ l
    · rw [List.cons_append, firstSeenDates, ih, if_pos hd,
        if_pos (List.mem_cons_of_mem e hd)]
      rfl
    · by_cases hde : d = e
      · subst hde
        rw [List.cons_append, firstSeenDates, ih, if_neg hd,
          if_pos (List.mem_cons_self _ _), List.filter_append,
          firstSeenDates]
        simp
      · rw [List.cons_append, firstSeenDates, ih, if_neg hd,
          if_neg (by simp [hde, hd]), List.filter_append, firstSeenDates]
        simp [hde]

theorem addToUnits_mem (m : Message) (d : Int) (f : Int → List Message) :
    ∀ ds : List Int, ds.Nodup → d ∈ ds →
      addToUnits (ds.map (fun e => (e, f e))) d m =
        ds.map (fun e => (e, if e = d then f e ++ [m] else f e)) := by
  intro ds
  induction ds with
  | nil => intro _ hmem; exact absurd hmem (List.not_mem_nil d)
  | cons e ds ih =>
    intro hnd hmem
    rw [List.nodup_cons] at hnd
    rw [List.map_cons, List.map_cons, addToUnits]
    by_cases he : e = d
    · subst he
      rw [if_pos rfl, if_pos rfl]
      congr 1
      refine (List.map_congr_left ?_).symm
      intro a ha
      rw [if_neg]
      intro hae
      subst hae
      exact hnd.1 ha
    · have hd : d ∈ ds := by
        rcases List.mem_cons.mp hmem with h | h
        · exact absurd h.symm he
        · exact h
      rw [if_neg he, if_neg he, ih hnd.2 hd]

theorem addToUnits_not_mem (m : Message) (d : Int)
    (f : Int → List Message) :
    ∀ ds : List Int, d ∉ ds →
      addToUnits (ds.map (fun e => (e, f e))) d m =
        ds.map (fun e => (e, f e)) ++ [(d, [m])] := by
  intro ds
  induction ds with
  | nil => intro _; rfl
  | cons e ds ih =>
    intro hmem
    rw [List.map_cons, addToUnits, if_neg ?_, ih (fun h => hmem (List.mem_cons_of_mem e h))]
    · rfl
    · intro he
      exact hmem (he ▸ List.mem_cons_self e ds)

/-- The keyed form of date grouping, written from the spec: one
`(date, messages of that date)` pair per first-seen date. -/
def unitsSpecKeyed (msgs : List Message) : List (Int × List Message) :=
  (firstSeenDates (msgs.map msgDate)).map
    (fun d => (d, msgs.filter (fun m => msgDate m = d)))

theorem foldl_addToUnits_eq (msgs : List Message) :
    msgs.foldl (fun units m => addToUnits units (msgDate m) m) [] =
      unitsSpecKeyed msgs := by
  induction msgs using List.reverseRecOn with
  | nil => rfl
  | append_singleton msgs m ih =>
    rw [List.foldl_append, List.foldl_cons, List.foldl_nil, ih]
    unfold unitsSpecKeyed
    by_cases hmem : msgDate m ∈ msgs.map msgDate
    · rw [addToUnits_mem m (msgDate m) _ _
        (nodup_firstSeenDates _) ((mem_firstSeenDates _ _).mpr hmem)]
      rw [List.map_append, List.map_singleton, firstSeenDates_append,
        if_pos hmem]
      refine List.map_congr_left ?_
      intro d hd
      rw [List.filter_append]
      by_cases hdm : d = msgDate m
      · subst hdm
        simp
      · rw [if_neg hdm]
        have : (List.filter (fun m' => decide (msgDate m' = d)) [m]) = [] := by
          simp only [List.filter_cons, List.filter_nil]
          rw [if_neg]
          simp only [decide_eq_true_eq]
          intro h
          exact hdm h.symm
        rw [this, List.append_nil]
    · rw [addToUnits_not_mem m (msgDate m) _ _
        (fun h => hmem ((mem_firstSeenDates _ _).mp h))]
      rw [List.map_append, List.map_singleton, firstSeenDates_append,
        if_neg hmem, List.map_append]
      congr 1
      · refine List.map_congr_left ?_
        intro d hd
        have hdm : d ≠ msgDate m := by
          intro h
          subst h
          exact hmem ((mem_firstSeenDates _ _).mp hd)
        rw [List.filter_append]
        have : (List.filter (fun m' => decide (msgDate m' = d)) [m]) = [] := by
          simp only [List.filter_cons, List.filter_nil]
          rw [if_neg]
          simp only [decide_eq_true_eq]
          intro h
          exact hdm h.symm
        rw [this, List.append_nil]
      · rw [List.map_singleton, List.filter_append]
        have h1 : msgs.filter (fun m' => decide (msgDate m' = msgDate m)) = [] := by
          rw [List.filter_eq_nil_iff]
          intro a ha
          simp only [decide_eq_true_eq]
          intro h
          exact hmem (h ▸ List.mem_map_of_mem msgDate ha)
        have h2 : (List.filter (fun m' => decide (msgDate m' = msgDate m)) [m]) = [m] := by
          simp
        rw [h1, h2, List.nil_append]

theorem groupByDate_eq_filtered (msgs : List Message) :
    groupByDate msgs =
      (firstSeenDates (msgs.map msgDate)).map
        (fun d => msgs.filter (fun m => msgDate m = d)) := by
  rw [groupByDate, foldl_addToUnits_eq, unitsSpecKeyed, List.map_map]
  rfl

theorem groupByDate_units_ne_nil (msgs : List Message) :
    ∀ u ∈ groupByDate msgs, u ≠ [] := by
  intro u hu
  rw [groupByDate_eq_filtered] at hu
  rcases List.mem_map.mp hu with ⟨d, hd, rfl⟩
  have hd' : d ∈ msgs.map msgDate := (mem_firstSeenDates _ _).mp hd
  rcases List.mem_map.mp hd' with ⟨m, hm, rfl⟩
  intro hnil
  have : m ∈ msgs.filter (fun m' => msgDate m' = msgDate m) :=
    List.mem_filter.mpr ⟨hm, by simp⟩
  rw [hnil] at this
  exact List.not_mem_nil m this

/-- C6: for every chronologically sorted input, date grouping yields one
unit per first-seen calendar date, each unit holding exactly the
messages of that date in input order, and turn segmentation is then
applied independently within each unit. -/
theorem groupByDate_spec (msgs : List Message) (hs : ChronSorted msgs) :
    groupByDate msgs =
      (firstSeenDates (msgs.map msgDate)).map
        (fun d => msgs.filter (fun m => msgDate m = d)) ∧
      segmentUnits msgs = (groupByDate msgs).map segment := by
  refine ⟨groupByDate_eq_filtered msgs, ?_⟩
  rw [segmentUnits]
  congr 1
  rw [List.filter_eq_self]
  intro u hu
  have := groupByDate_units_ne_nil msgs u hu
  simpa [List.isEmpty_iff] using this

/-- Concrete instance of `groupByDate_spec` on a two-day conversation. -/
theorem groupByDate_spec_example :
    groupByDate [⟨0, "A", "B", "hi"⟩, ⟨60, "B", "A", "yo"⟩,
                 ⟨86400, "A", "B", "next day"⟩] =
      (firstSeenDates
        ([⟨0, "A", "B", "hi"⟩, ⟨60, "B", "A", "yo"⟩,
          ⟨86400, "A", "B", "next day"⟩].map msgDate)).map
        (fun d =>
          [⟨0, "A", "B", "hi"⟩, ⟨60, "B", "A", "yo"⟩,
           ⟨86400, "A", "B", "next day"⟩].filter
            (fun m => msgDate m = d)) ∧
      segmentUnits [⟨0, "A", "B", "hi"⟩, ⟨60, "B", "A", "yo"⟩,
                    ⟨86400, "A", "B", "next day"⟩] =
        (groupByDate [⟨0, "A", "B", "hi"⟩, ⟨60, "B", "A", "yo"⟩,
                      ⟨86400, "A", "B", "next day"⟩]).map segment :=
  groupByDate_spec _ (by norm_num [ChronSorted, List.chain'_cons])

/-- One entry of the alias-mapping JSON file
(`{primary: string, aliases: [...]}`, read at convo_regenerator.py
lines 429-434). -/
structure AliasEntry where
  primary : String
  aliases : List String
deriving DecidableEq, Repr

/-- All identifiers an entry writes into the alias dictionary: the
primary and each alias (convo_regenerator.py lines 439-443). -/
def mentions (e : AliasEntry) : List String := e.primary :: e.aliases

/-- The alias dictionary built at convo_regenerator.py lines 437-443:
for each entry, when its primary is truthy (line 440 skips an entry
with an empty primary), the primary is mapped to itself and every alias
to the primary.  The Python dict is modelled as a partial map with
last-write-wins updates. -/
def buildAliasMapping (entries : List AliasEntry) : String → Option String :=
  entries.foldl
    (fun m e =>
      if e.primary = "" then m
      else
        e.aliases.foldl
          (fun m' a k => if k = a then some e.primary else m' k)
          (fun k => if k = e.primary then some e.primary else m k))
    (fun _ => none)

/-- Embeds `alias_mapping.get(name, name)` (convo_regenerator.py lines
468-469): canonicalize a raw identifier, passing unmapped names
through. -/
def canonicalize (m : String → Option String) (s : String) : String :=
  (m s).getD s

/-- Embeds `sorted([sender_canonical, receiver_canonical])`, the conversation
key (convo_regenerator.py line 472). -/
def convKey (a b : String) : String × String :=
  if a ≤ b then (a, b) else (b, a)

/-- The conversation lookup of `conversation_to_html_generalized`
(convo_regenerator.py lines 36-42): try `(user_i, user_j)`, then
`(user_j, user_i)`. -/
def lookupConv {α : Type} (turns : String × String → Option α)
    (ui uj : String) : Option α :=
  match turns (ui, uj) with
  | some v => some v
  | none => turns (uj, ui)

theorem aliasFold_inner (p : String) (m1 : String → Option String) :
    ∀ (as : List String) (k : String),
      (as.foldl (fun m' a k' => if k' = a then some p else m' k') m1) k =
        if k ∈ as then some p else m1 k := by
  intro as
  induction as generalizing m1 with
  | nil => intro k; simp
  | cons a as ih =>
    intro k
    rw [List.foldl_cons, ih]
    by_cases hk : k ∈ as
    · rw [if_pos hk, if_pos (List.mem_cons_of_mem a hk)]
    · rw [if_neg hk]
      by_cases hka : k = a
      · rw [if_pos hka, if_pos (by rw [hka]; exact List.mem_cons_self a as)]
      · rw [if_neg hka, if_neg (by simp [hka, hk])]

theorem buildAliasMapping_concat (entries : List AliasEntry)
    (e : AliasEntry) (k : String) :
    buildAliasMapping (entries ++ [e]) k =
      if e.primary = "" then buildAliasMapping entries k
      else if k ∈ mentions e then some e.primary
      else buildAliasMapping entries k := by
  rw [buildAliasMapping, List.foldl_append, List.foldl_cons, List.foldl_nil]
  by_cases hp : e.primary = ""
  · rw [if_pos hp, if_pos hp]
    rfl
  rw [if_neg hp, if_neg hp]
  rw [aliasFold_inner]
  by_cases hk : k ∈ e.aliases
  · rw [if_pos hk,
      if_pos (show k ∈ mentions e from List.mem_cons_of_mem _ hk)]
  · rw [if_neg hk]
    by_cases hkp : k = e.primary
    · rw [if_pos hkp,
        if_pos (show k ∈ mentions e from by
          rw [hkp]; exact List.mem_cons_self _ _)]
    · rw [if_neg hkp,
        if_neg (show k ∉ mentions e from by simp [mentions, hkp, hk])]
      rfl

theorem buildAliasMapping_not_mentioned (k : String) :
    ∀ entries : List AliasEntry,
      (∀ e ∈ entries, k ∉ mentions e) →
      buildAliasMapping entries k = none := by
  intro entries
  induction entries using List.reverseRecOn with
  | nil => intro _; rfl
  | append_singleton entries e ih =>
    intro h
    rw [buildAliasMapping_concat]
    by_cases hp : e.primary = ""
    · rw [if_pos hp]
      exact ih (fun e' he' => h e' (List.mem_append_left [e] he'))
    · rw [if_neg hp, if_neg
        (h e (List.mem_append_right entries (List.mem_singleton_self e)))]
      exact ih (fun e' he' => h e' (List.mem_append_left [e] he'))

theorem buildAliasMapping_mentioned (k : String) :
    ∀ entries : List AliasEntry, ∀ e ∈ entries, k ∈ mentions e →
      e.primary ≠ "" →
      (∀ e' ∈ entries, k ∈ mentions e' → e'.primary = e.primary) →
      buildAliasMapping entries k = some e.primary := by
  intro entries
  induction entries using List.reverseRecOn with
  | nil => intro e he; exact absurd he (List.not_mem_nil e)
  | append_singleton entries elast ih =>
    intro e he hk hp huniq
    rw [buildAliasMapping_concat]
    have huniq' : ∀ e'' ∈ entries, k ∈ mentions e'' →
        e''.primary = e.primary :=
      fun e'' he'' hk'' =>
        huniq e'' (List.mem_append_left [elast] he'') hk''
    by_cases hplast : elast.primary = ""
    · rw [if_pos hplast]
      have he' : e ∈ entries := by
        rcases List.mem_append.mp he with h | h
        · exact h
        · rw [List.mem_singleton] at h
          subst h
          exact absurd hplast hp
      exact ih e he' hk hp huniq'
    · rw [if_neg hplast]
      by_cases hlast : k ∈ mentions elast
      · rw [if_pos hlast]
        rw [huniq elast
          (List.mem_append_right entries (List.mem_singleton_self elast))
          hlast]
      · rw [if_neg hlast]
        have he' : e ∈ entries := by
          rcases List.mem_append.mp he with h | h
          · exact h
          · rw [List.mem_singleton] at h
            subst h
            exact absurd hk hlast
        exact ih e he' hk hp huniq'

/-- C7: canonicalization maps every known alias and every primary to the
canonical primary of its entry (an entry is in effect only when its
primary is truthy, per the guard at convo_regenerator.py line 440) and
passes unmapped identifiers through unchanged; the conversation key is
the unordered (sorted) pair of the canonical participants, so the key
is direction-independent; and the HTML lookup succeeds in either
argument order whenever a bucket exists for the pair in either
orientation. -/
theorem alias_canonicalization_spec :
    (∀ (entries : List AliasEntry) (x : String),
        (∀ e ∈ entries, x ∉ mentions e) →
        canonicalize (buildAliasMapping entries) x = x) ∧
      (∀ (entries : List AliasEntry) (e : AliasEntry) (x : String),
        e ∈ entries → x ∈ mentions e → e.primary ≠ "" →
        (∀ e' ∈ entries, x ∈ mentions e' → e'.primary = e.primary) →
        canonicalize (buildAliasMapping entries) x = e.primary) ∧
      (∀ a b : String, convKey a b = convKey b a) ∧
      (∀ (turns : String × String → Option (List (List Message)))
          (a b : String),
        (turns (a, b)).isSome ∨ (turns (b, a)).isSome →
        (lookupConv turns a b).isSome ∧ (lookupConv turns b a).isSome) := by
  refine ⟨?_, ?_, ?_, ?_⟩
  · intro entries x h
    rw [canonicalize, buildAliasMapping_not_mentioned x entries h]
    rfl
  · intro entries e x he hx hp huniq
    rw [canonicalize,
      buildAliasMapping_mentioned x entries e he hx hp huniq]
    rfl
  · intro a b
    rw [convKey, convKey]
    rcases le_total a b with h | h
    · rcases eq_or_lt_of_le h with rfl | hlt
      · simp
      · rw [if_pos h, if_neg (not_le_of_lt hlt)]
    · rcases eq_or_lt_of_le h with rfl | hlt
      · simp
      · rw [if_pos h, if_neg (not_le_of_lt hlt)]
  · intro turns a b h
    constructor
    · rw [lookupConv]
      rcases hab : turns (a, b) with _ | v
      · rcases hba : turns (b, a) with _ | w
        · rw [hab, hba] at h
          simp at h
        · simp [hba]
      · simp
    · rw [lookupConv]
      rcases hba : turns (b, a) with _ | w
      · rcases hab : turns (a, b) with _ | v
        · rw [hab, hba] at h
          simp at h
        · simp [hab]
      · simp

/-- Concrete instance of `alias_canonicalization_spec` on the table
`{"bob": "Robert", "Robert": "Robert"}`. -/
theorem alias_canonicalization_spec_example :
    canonicalize (buildAliasMapping [⟨"Robert", ["bob"]⟩]) "bob" =
        "Robert" ∧
      canonicalize (buildAliasMapping [⟨"Robert", ["bob"]⟩]) "Robert" =
        "Robert" ∧
      canonicalize (buildAliasMapping [⟨"Robert", ["bob"]⟩]) "zoe" =
        "zoe" ∧
      convKey "bob" "Robert" = convKey "Robert" "bob" :=
  ⟨alias_canonicalization_spec.2.1 [⟨"Robert", ["bob"]⟩]
      ⟨"Robert", ["bob"]⟩ "bob" (by decide) (by decide) (by decide)
      (by decide),
    alias_canonicalization_spec.2.1 [⟨"Robert", ["bob"]⟩]
      ⟨"Robert", ["bob"]⟩ "Robert" (by decide) (by decide) (by decide)
      (by decide),
    alias_canonicalization_spec.1 [⟨"Robert", ["bob"]⟩] "zoe" (by decide),
    alias_canonicalization_spec.2.2.1 "bob" "Robert"⟩

/-- The double-quote character, removed by the replace calls at
blackbasta_json_cleaner.py lines 43 and 56. -/
def quoteChar : Char := Char.ofNat 34

/-- Python's `\w` (and `[\w\d]`) on the ASCII identifiers of this data
set: letters, digits, or underscore. -/
def isWordChar (c : Char) : Bool := c.isAlphanum || c = '_'

/-- The character class `[\w\d_-]` of the sender regex
(blackbasta_json_cleaner.py line 58). -/
def isSenderChar (c : Char) : Bool := isWordChar c || c = '-'

/-- Embeds `s.replace(quote, empty)`: drop every double quote. -/
def stripQuotes (s : String) : String :=
  ⟨s.data.filter (fun c => c ≠ quoteChar)⟩

/-- Embeds the search for `!([\w\d]+)` (blackbasta_json_cleaner.py line 45):
scan for the first `!` followed by at least one word character and
return the captured run of word characters. -/
def searchRoomId : List Char → Option (List Char)
  | [] => none
  | c :: rest =>
    if c = '!' then
      if (rest.takeWhile isWordChar).isEmpty then searchRoomId rest
      else some (rest.takeWhile isWordChar)
    else searchRoomId rest

/-- Embeds the search for `@?([\w\d_-]+)` (blackbasta_json_cleaner.py
line 58): the capture group is the first maximal run of `[\w\d_-]`
characters; an immediately preceding `@` is consumed but not
captured. -/
def searchSenderRun : List Char → Option (List Char)
  | [] => none
  | c :: rest =>
    if isSenderChar c then some ((c :: rest).takeWhile isSenderChar)
    else searchSenderRun rest

/-- chat_id cleaning (blackbasta_json_cleaner.py lines 40-50): strip
quotes, then `!` + room id when the pattern matches, otherwise the
quote-stripped string. -/
def cleanChatIdStr (s : String) : String :=
  match searchRoomId (stripQuotes s).data with
  | some run => "!" ++ ⟨run⟩
  | none => stripQuotes s

/-- sender_alias cleaning (blackbasta_json_cleaner.py lines 53-63):
strip quotes, then the first username run when the pattern matches,
otherwise the quote-stripped string. -/
def cleanSenderStr (s : String) : String :=
  match searchSenderRun (stripQuotes s).data with
  | some run => (⟨run⟩ : String)
  | none => stripQuotes s

/-- C8: the identifier cleaner satisfies the spec's examples, and when
the expected pattern does not match the result is the input unchanged
except for quote stripping. -/
theorem identifier_cleaning_spec :
    cleanChatIdStr "!abc123:matrix.example.org" = "!abc123" ∧
      cleanSenderStr "@bob_99:example.org" = "bob_99" ∧
      cleanSenderStr "\"plainname\"" = "plainname" ∧
      cleanChatIdStr "\"plainname\"" = "plainname" ∧
      (∀ s : String, searchRoomId (stripQuotes s).data = none →
        cleanChatIdStr s = stripQuotes s) ∧
      (∀ s : String, searchSenderRun (stripQuotes s).data = none →
        cleanSenderStr s = stripQuotes s) := by
  refine ⟨by decide, by decide, by decide, by decide, ?_, ?_⟩
  · intro s h
    rw [cleanChatIdStr, h]
  · intro s h
    rw [cleanSenderStr, h]

/-- Concrete instance of the fallback clauses of
`identifier_cleaning_spec`: a string with no word characters is returned
quote-stripped. -/
theorem identifier_cleaning_spec_example :
    cleanChatIdStr ":::" = stripQuotes ":::" ∧
      cleanSenderStr ":::" = stripQuotes ":::" :=
  ⟨identifier_cleaning_spec.2.2.2.2.1 ":::" (by decide),
    identifier_cleaning_spec.2.2.2.2.2 ":::" (by decide)⟩

/-- A JSON value occurring in a message object. -/
inductive JVal where
  | str (s : String)
  | num (n : Int)
  | bool (b : Bool)
  | null
deriving DecidableEq, Repr

/-- Embeds `d.get(k)` on a Python dict modelled as an association list with
distinct keys: the first binding wins. -/
def dictGet (d : List (String × JVal)) (k : String) : Option JVal :=
  (d.find? (fun kv => kv.1 = k)).map Prod.snd

/-- Embeds `d[k] = v` on an existing key: Python dicts keep the key's position
and replace the value. -/
def dictSet (d : List (String × JVal)) (k : String) (v : JVal) :
    List (String × JVal) :=
  d.map (fun kv => if kv.1 = k then (k, v) else kv)

/-- One iteration of the cleaning loop (blackbasta_json_cleaner.py
lines 36-65): copy the message, then rewrite `chat_id` and
`sender_alias` when present.  Reading a non-string value raises in
Python (`.replace` on a non-string), which the handler at lines 78-80
turns into an empty overall result; this is modelled with `Except`. -/
def cleanMsg (msg : List (String × JVal)) :
    Except String (List (String × JVal)) :=
  match
    match dictGet msg "chat_id" with
    | none => Except.ok msg
    | some (JVal.str s) =>
      Except.ok (dictSet msg "chat_id" (JVal.str (cleanChatIdStr s)))
    | some _ => Except.error "chat_id is not a string"
  with
  | Except.error e => Except.error e
  | Except.ok c1 =>
    match dictGet msg "sender_alias" with
    | none => Except.ok c1
    | some (JVal.str s) =>
      Except.ok (dictSet c1 "sender_alias" (JVal.str (cleanSenderStr s)))
    | some _ => Except.error "sender_alias is not a string"

/-- The cleaning loop over all messages (blackbasta_json_cleaner.py
lines 35-65): any raised error aborts the whole run. -/
def cleanAll : List (List (String × JVal)) →
    Except String (List (List (String × JVal)))
  | [] => Except.ok []
  | msg :: rest =>
    match cleanMsg msg with
    | Except.error e => Except.error e
    | Except.ok m' =>
      match cleanAll rest with
      | Except.error e => Except.error e
      | Except.ok out => Except.ok (m' :: out)

/-- The parsed input document of `clean_matrix_json`: a JSON array, a
single JSON object (wrapped into a one-element list, lines 27-30), or
any other JSON value (rejected at line 32).  A JSON parse failure is an
`Except.error`. -/
inductive JsonDoc where
  | arr (msgs : List (List (String × JVal)))
  | obj (msg : List (String × JVal))
  | other

/-- Embeds `clean_matrix_json` (blackbasta_json_cleaner.py lines 21-80) minus
the file I/O: every raised error (malformed JSON at line 24, a
non-list/non-dict document at line 32, a non-string field inside the
loop) is caught by the handlers at lines 75-80, logged, and turned into
an empty result list. -/
def cleanMatrixJson (input : Except String JsonDoc) :
    List (List (String × JVal)) :=
  match input with
  | Except.error _ => []
  | Except.ok JsonDoc.other => []
  | Except.ok (JsonDoc.obj m) =>
    match cleanAll [m] with
    | Except.ok out => out
    | Except.error _ => []
  | Except.ok (JsonDoc.arr data) =>
    match cleanAll data with
    | Except.ok out => out
    | Except.error _ => []

/-- C9: when the input file contains malformed JSON, the decode error is
caught rather than propagated, and the cleaning function returns an
empty list. -/
theorem malformed_json_yields_empty (e : String) :
    cleanMatrixJson (Except.error e) = [] := rfl

theorem dictSet_keys (d : List (String × JVal)) (k : String) (v : JVal) :
    (dictSet d k v).map Prod.fst = d.map Prod.fst := by
  induction d with
  | nil => rfl
  | cons kv rest ih =>
    rw [dictSet, List.map_cons, List.map_cons, List.map_cons]
    rw [dictSet] at ih
    rw [ih]
    by_cases h : kv.1 = k
    · rw [if_pos h]
      simp [h]
    · rw [if_neg h]

theorem dictGet_dictSet_ne (k k' : String) (v : JVal) (hne : k' ≠ k) :
    ∀ d : List (String × JVal),
      dictGet (dictSet d k v) k' = dictGet d k' := by
  intro d
  induction d with
  | nil => rfl
  | cons kv rest ih =>
    rw [dictSet, List.map_cons, dictGet, dictGet]
    rw [dictSet] at ih
    by_cases h : kv.1 = k
    · rw [if_pos h]
      rw [List.find?_cons_of_neg _ (by
        simp only [decide_eq_true_eq]
        intro hk
        exact hne hk.symm)]
      rw [List.find?_cons_of_neg _ (by
        simp only [decide_eq_true_eq]
        intro hk
        exact hne ((h ▸ hk : k = k')).symm)]
      exact ih
    · rw [if_neg h]
      by_cases hk : kv.1 = k'
      · rw [List.find?_cons_of_pos _ (by simp [hk]),
          List.find?_cons_of_pos _ (by simp [hk])]
      · rw [List.find?_cons_of_neg _ (by simp [hk]),
          List.find?_cons_of_neg _ (by simp [hk])]
        exact ih

theorem cleanMsg_frame (msg m' : List (String × JVal))
    (h : cleanMsg msg = Except.ok m') :
    m'.map Prod.fst = msg.map Prod.fst ∧
      ∀ k, k ≠ "chat_id" → k ≠ "sender_alias" →
        dictGet m' k = dictGet msg k := by
  rw [cleanMsg] at h
  rcases hc : dictGet msg "chat_id" with _ | vc
  all_goals rw [hc] at h
  · rcases hs : dictGet msg "sender_alias" with _ | vs
    all_goals rw [hs] at h
    · simp only [Except.ok.injEq] at h
      subst h
      exact ⟨rfl, fun _ _ _ => rfl⟩
    · rcases vs with s | n | b | _
      · simp only [Except.ok.injEq] at h
        subst h
        refine ⟨dictSet_keys msg _ _, ?_⟩
        intro k _ hk2
        exact dictGet_dictSet_ne _ _ _ hk2 msg
      all_goals exact absurd h (by simp)
  · rcases vc with s | n | b | _
    · rcases hs : dictGet msg "sender_alias" with _ | vs
      all_goals rw [hs] at h
      · simp only [Except.ok.injEq] at h
        subst h
        refine ⟨dictSet_keys msg _ _, ?_⟩
        intro k hk1 _
        exact dictGet_dictSet_ne _ _ _ hk1 msg
      · rcases vs with s' | n | b | _
        · simp only [Except.ok.injEq] at h
          subst h
          refine ⟨by rw [dictSet_keys, dictSet_keys], ?_⟩
          intro k hk1 hk2
          rw [dictGet_dictSet_ne _ _ _ hk2, dictGet_dictSet_ne _ _ _ hk1]
        all_goals exact absurd h (by simp)
    all_goals exact absurd h (by simp)

/-- C10: a successful cleaning run returns one output message per input
message, in order; each output message has the same keys in the same
order as its input message; and every key other than `chat_id` and
`sender_alias` keeps its input value.  (The embedding is pure: input
dictionaries are never mutated, each output entry being a fresh
value.) -/
theorem cleanAll_frame :
    ∀ data out : List (List (String × JVal)),
      cleanAll data = Except.ok out →
      out.length = data.length ∧
        ∀ i (hi : i < out.length) (hd : i < data.length),
          (out.get ⟨i, hi⟩).map Prod.fst =
              (data.get ⟨i, hd⟩).map Prod.fst ∧
            ∀ k, k ≠ "chat_id" → k ≠ "sender_alias" →
              dictGet (out.get ⟨i, hi⟩) k = dictGet (data.get ⟨i, hd⟩) k := by
  intro data
  induction data with
  | nil =>
    intro out h
    simp only [cleanAll, Except.ok.injEq] at h
    subst h
    exact ⟨rfl, fun i hi => absurd hi (by simp)⟩
  | cons msg rest ih =>
    intro out h
    rw [cleanAll] at h
    rcases hm : cleanMsg msg with e | m'
    all_goals rw [hm] at h
    · exact absurd h (by simp)
    · rcases hr : cleanAll rest with e | out'
      all_goals rw [hr] at h
      · exact absurd h (by simp)
      · simp only [Except.ok.injEq] at h
        subst h
        obtain ⟨hlen, hrest⟩ := ih out' hr
        refine ⟨by simp [hlen], ?_⟩
        intro i hi hd
        cases i with
        | zero => exact cleanMsg_frame msg m' hm
        | succ j =>
          exact hrest j (Nat.lt_of_succ_lt_succ hi)
            (Nat.lt_of_succ_lt_succ hd)

/-- Concrete instance of `cleanAll_frame`: cleaning preserves length and
the `body` field. -/
theorem cleanAll_frame_example :
    ([[("chat_id", JVal.str "!a"), ("body", JVal.str "hi")]] :
        List (List (String × JVal))).length =
      ([[("chat_id", JVal.str "!a:x"), ("body", JVal.str "hi")]] :
        List (List (String × JVal))).length ∧
      dictGet [("chat_id", JVal.str "!a"), ("body", JVal.str "hi")]
          "body" =
        dictGet [("chat_id", JVal.str "!a:x"), ("body", JVal.str "hi")]
          "body" :=
  have h := cleanAll_frame
    [[("chat_id", JVal.str "!a:x"), ("body", JVal.str "hi")]]
    [[("chat_id", JVal.str "!a"), ("body", JVal.str "hi")]] rfl
  ⟨h.1,
    (h.2 0 (by decide) (by decide)).2 "body" (by decide) (by decide)⟩

end ChatRecreator
